import Mathlib

/-!
Shallow embedding of the Shaders repository (a CPU-side 3D rendering
pipeline in Rust): the `Color` value type (`src/color.rs`), the orbital
`Camera` (`src/camera.rs`), transform-matrix construction and primitive
assembly (`src/main.rs`).  Machine `u8`/`u16`/`i16`/`u32` arithmetic is
modelled over `Nat`/`Int` with explicit widening and truncation where the
Rust code casts; `f32` arithmetic is modelled over the real numbers.
-/

namespace Shaders

/-- Rust `f32::clamp(lo, hi)`: `if self < lo { lo } else if self > hi { hi } else { self }`. -/
noncomputable def rustClamp (x lo hi : ℝ) : ℝ :=
  if x < lo then lo else if x > hi then hi else x

/-- Rust float truncation toward zero (used by the `%` remainder operator). -/
noncomputable def rustTrunc (x : ℝ) : ℝ :=
  if 0 ≤ x then (⌊x⌋ : ℤ) else (⌈x⌉ : ℤ)

/-- Rust `%` on floats: remainder with the sign of the dividend,
`a % b = a - b * trunc(a / b)`. -/
noncomputable def rustRem (a b : ℝ) : ℝ := a - b * rustTrunc (a / b)

/-- Rust `f32::round`: rounds half away from zero. -/
noncomputable def rustRound (x : ℝ) : ℝ :=
  if 0 ≤ x then (⌊x + 1/2⌋ : ℤ) else (⌈x - 1/2⌉ : ℤ)

/-- Rust saturating float-to-`u8` cast (`as u8`): truncates toward zero and
saturates into `[0, 255]`. -/
noncomputable def f32ToU8 (x : ℝ) : ℕ :=
  if x ≤ 0 then 0 else if x ≥ 255 then 255 else ⌊x⌋₊

/-- Rust `f32::atan2(y, x)`. -/
noncomputable def atan2 (y x : ℝ) : ℝ :=
  if 0 < x then Real.arctan (y / x)
  else if x < 0 then
    (if 0 ≤ y then Real.arctan (y / x) + Real.pi else Real.arctan (y / x) - Real.pi)
  else
    (if 0 < y then Real.pi / 2 else if y < 0 then -(Real.pi / 2) else 0)

/-! ## Color (src/color.rs)

A `Color` stores three `u8` channels; we model each as a `ℕ` together with
a validity bound `< 256` carried as a hypothesis where a claim needs it. -/

structure Color where
  r : ℕ
  g : ℕ
  b : ℕ
  deriving DecidableEq, Repr

namespace Color

/-- `Color::new`. -/
def new (r g b : ℕ) : Color := ⟨r, g, b⟩

/-- `Color::from_hex`: extracts the three channels of a `u32` by shifts and
masks; the final `as u8` cast is the identity on values `< 256` and is
modelled by `% 256`. -/
def from_hex (hex : ℕ) : Color :=
  ⟨((hex >>> 16) &&& 0xFF) % 256, ((hex >>> 8) &&& 0xFF) % 256, (hex &&& 0xFF) % 256⟩

/-- `Color::to_hex`: `((r as u32) << 16) | ((g as u32) << 8) | (b as u32)`,
reduced modulo `2^32` as `u32` arithmetic is. -/
def to_hex (c : Color) : ℕ :=
  ((c.r <<< 16) ||| (c.g <<< 8) ||| c.b) % 2 ^ 32

/-- `Color::lerp`: clamps `t` into `[0,1]`, then per channel computes
`self + (other - self) * t` in `f32`, rounds, and casts back to `u8`. -/
noncomputable def lerp (c other : Color) (t : ℝ) : Color :=
  let t := rustClamp t 0 1
  ⟨f32ToU8 (rustRound ((c.r : ℝ) + ((other.r : ℝ) - (c.r : ℝ)) * t)),
   f32ToU8 (rustRound ((c.g : ℝ) + ((other.g : ℝ) - (c.g : ℝ)) * t)),
   f32ToU8 (rustRound ((c.b : ℝ) + ((other.b : ℝ) - (c.b : ℝ)) * t))⟩

/-- `Color::blend_add`: widens each channel to `u16` (modelled by `% 2^16`
on the sum), takes `min` with 255, and casts back to `u8` (`% 256`). -/
def blend_add (c blend : Color) : Color :=
  ⟨(min ((c.r + blend.r) % 2 ^ 16) 255) % 256,
   (min ((c.g + blend.g) % 2 ^ 16) 255) % 256,
   (min ((c.b + blend.b) % 2 ^ 16) 255) % 256⟩

/-- `i16` subtraction of two widened `u8` values never overflows, so
`self.r as i16 - blend.r as i16` is exact integer subtraction. The result
of `.max(0).min(255)` is in `[0,255]` and the `as u8` cast is `% 256` on
its `toNat`. -/
def blend_subtract (c blend : Color) : Color :=
  ⟨(min (max ((c.r : ℤ) - (blend.r : ℤ)) 0) 255).toNat % 256,
   (min (max ((c.g : ℤ) - (blend.g : ℤ)) 0) 255).toNat % 256,
   (min (max ((c.b : ℤ) - (blend.b : ℤ)) 0) 255).toNat % 256⟩

/-- `impl Add for Color`: `u8::saturating_add` per channel. -/
def add (c other : Color) : Color :=
  ⟨min (c.r + other.r) 255, min (c.g + other.g) 255, min (c.b + other.b) 255⟩

/-- `impl Mul<f32> for Color`: per channel `(ch as f32 * scalar).clamp(0.0, 255.0) as u8`. -/
noncomputable def mulScalar (c : Color) (scalar : ℝ) : Color :=
  ⟨f32ToU8 (rustClamp ((c.r : ℝ) * scalar) 0 255),
   f32ToU8 (rustClamp ((c.g : ℝ) * scalar) 0 255),
   f32ToU8 (rustClamp ((c.b : ℝ) * scalar) 0 255)⟩

end Color

/-! ## Vectors (nalgebra_glm::Vec3 over the reals) -/

structure Vec3 where
  x : ℝ
  y : ℝ
  z : ℝ

namespace Vec3

instance : Add Vec3 := ⟨fun a b => ⟨a.x + b.x, a.y + b.y, a.z + b.z⟩⟩
instance : Sub Vec3 := ⟨fun a b => ⟨a.x - b.x, a.y - b.y, a.z - b.z⟩⟩
instance : SMul ℝ Vec3 := ⟨fun s v => ⟨s * v.x, s * v.y, s * v.z⟩⟩

/-- `Vec3::new`. -/
def new (x y z : ℝ) : Vec3 := ⟨x, y, z⟩

/-- `nalgebra` `magnitude`: the Euclidean norm. -/
noncomputable def magnitude (v : Vec3) : ℝ :=
  Real.sqrt (v.x * v.x + v.y * v.y + v.z * v.z)

/-- `nalgebra` `normalize`: componentwise division by the magnitude. -/
noncomputable def normalize (v : Vec3) : Vec3 :=
  ⟨v.x / v.magnitude, v.y / v.magnitude, v.z / v.magnitude⟩

theorem ext_iff {a b : Vec3} : a = b ↔ a.x = b.x ∧ a.y = b.y ∧ a.z = b.z := by
  constructor
  · rintro rfl; exact ⟨rfl, rfl, rfl⟩
  · rcases a with ⟨ax, ay, az⟩
    rcases b with ⟨bx, by_, bz⟩
    rintro ⟨h1, h2, h3⟩
    simp_all

@[simp] theorem add_def (a b : Vec3) : a + b = ⟨a.x + b.x, a.y + b.y, a.z + b.z⟩ := rfl
@[simp] theorem sub_def (a b : Vec3) : a - b = ⟨a.x - b.x, a.y - b.y, a.z - b.z⟩ := rfl
@[simp] theorem smul_def (s : ℝ) (v : Vec3) : s • v = ⟨s * v.x, s * v.y, s * v.z⟩ := rfl

end Vec3

/-! ## Camera (src/camera.rs)

`&mut self` methods are modelled as functions `Camera → ... → Camera`;
`check_if_changed` returns its `bool` result together with the new state. -/

structure Camera where
  eye : Vec3
  center : Vec3
  up : Vec3
  has_changed : Bool

namespace Camera

/-- `Camera::new`: starts with the dirty flag set. -/
def new (eye center up : Vec3) : Camera :=
  ⟨eye, center, up, true⟩

/-- Local binding `radius_vector` of `Camera::orbit`. -/
noncomputable def radius_vector (cam : Camera) : Vec3 := cam.eye - cam.center

/-- Local binding `radius` of `Camera::orbit`. -/
noncomputable def radius (cam : Camera) : ℝ := (radius_vector cam).magnitude

/-- Local binding `current_yaw` of `Camera::orbit`. -/
noncomputable def current_yaw (cam : Camera) : ℝ :=
  atan2 (radius_vector cam).z (radius_vector cam).x

/-- Local binding `radius_xz` of `Camera::orbit`. -/
noncomputable def radius_xz (cam : Camera) : ℝ :=
  Real.sqrt ((radius_vector cam).x * (radius_vector cam).x +
    (radius_vector cam).z * (radius_vector cam).z)

/-- Local binding `current_pitch` of `Camera::orbit`. -/
noncomputable def current_pitch (cam : Camera) : ℝ :=
  atan2 (-(radius_vector cam).y) (radius_xz cam)

/-- Local binding `new_yaw` of `Camera::orbit`. -/
noncomputable def new_yaw (cam : Camera) (delta_yaw : ℝ) : ℝ :=
  rustRem (current_yaw cam + delta_yaw) (2 * Real.pi)

/-- Local binding `new_pitch` of `Camera::orbit`. -/
noncomputable def new_pitch (cam : Camera) (delta_pitch : ℝ) : ℝ :=
  rustClamp (current_pitch cam + delta_pitch) (-Real.pi / 2 + 0.1)
    (Real.pi / 2 - 0.1)

/-- Local binding `new_eye` of `Camera::orbit`. -/
noncomputable def new_eye (cam : Camera) (delta_yaw delta_pitch : ℝ) : Vec3 :=
  cam.center + Vec3.new
    (radius cam * Real.cos (new_yaw cam delta_yaw) * Real.cos (new_pitch cam delta_pitch))
    (-radius cam * Real.sin (new_pitch cam delta_pitch))
    (radius cam * Real.sin (new_yaw cam delta_yaw) * Real.cos (new_pitch cam delta_pitch))

/-- `Camera::orbit`: recomputes yaw/pitch from `eye - center`, adds the
deltas, wraps yaw with the Rust `%` remainder, clamps pitch into
`[-PI/2 + 0.1, PI/2 - 0.1]`, and rebuilds `eye` around the unchanged
`center`; sets the dirty flag.  The local bindings of the Rust function
are the definitions above. -/
noncomputable def orbit (cam : Camera) (delta_yaw delta_pitch : ℝ) : Camera :=
  { cam with eye := new_eye cam delta_yaw delta_pitch, has_changed := true }

/-- `Camera::zoom`: moves `eye` along the normalized `center - eye`
direction by `delta`; sets the dirty flag. -/
noncomputable def zoom (cam : Camera) (delta : ℝ) : Camera :=
  let direction := (cam.center - cam.eye).normalize
  { cam with eye := cam.eye + delta • direction, has_changed := true }

/-- `Camera::move_center`: translates both `center` and `eye`; the source
does NOT touch `has_changed` here. -/
def move_center (cam : Camera) (movement : Vec3) : Camera :=
  { cam with center := cam.center + movement, eye := cam.eye + movement }

/-- `Camera::check_if_changed`: returns the flag and clears it. -/
def check_if_changed (cam : Camera) : Bool × Camera :=
  if cam.has_changed then (true, { cam with has_changed := false })
  else (false, cam)

/-- `Camera::rotate_pitch`: the source body is empty (a comment only). -/
def rotate_pitch (cam : Camera) (_angle : ℝ) : Camera := cam

/-- `Camera::rotate_yaw`: the source body is empty (a comment only). -/
def rotate_yaw (cam : Camera) (_angle : ℝ) : Camera := cam

/-- `Camera::move_up`: shifts the `y` of both `eye` and `center`; the
source does NOT touch `has_changed` here. -/
def move_up (cam : Camera) (amount : ℝ) : Camera :=
  { cam with eye := { cam.eye with y := cam.eye.y + amount },
             center := { cam.center with y := cam.center.y + amount } }

/-- `Camera::set_bird_eye_view`: hard-resets eye/center/up; the source
does NOT touch `has_changed` here. -/
def set_bird_eye_view (cam : Camera) : Camera :=
  { cam with eye := Vec3.new 0 20 0, center := Vec3.new 0 0 0,
             up := Vec3.new 0 0 1 }

/-- Applying `orbit` once per element of a list of
`(delta_yaw, delta_pitch)` pairs, in order. -/
noncomputable def orbitSeq (cam : Camera) (ds : List (ℝ × ℝ)) : Camera :=
  ds.foldl (fun c d => c.orbit d.1 d.2) cam

end Camera

/-- The pitch angle of `eye` around `center`, recomputed exactly the way
`Camera::orbit` itself recomputes it (lines 40–41 of src/camera.rs):
`atan2` of the negated Y offset against the XZ-radius. -/
noncomputable def eyePitch (eye center : Vec3) : ℝ :=
  atan2 (-(eye - center).y)
    (Real.sqrt ((eye - center).x * (eye - center).x +
      (eye - center).z * (eye - center).z))

/-! ## Transform construction and primitive assembly (src/main.rs) -/

/-- `create_model_matrix` (src/main.rs): builds the three Euler rotation
matrices, multiplies them as `Rz * Ry * Rx`, and multiplies the combined
translation+uniform-scale matrix on the left.  `Mat4::new` lists entries
row-major. -/
noncomputable def create_model_matrix (translation : Vec3) (scale : ℝ) (rotation : Vec3) :
    Matrix (Fin 4) (Fin 4) ℝ :=
  let sin_x := Real.sin rotation.x
  let cos_x := Real.cos rotation.x
  let sin_y := Real.sin rotation.y
  let cos_y := Real.cos rotation.y
  let sin_z := Real.sin rotation.z
  let cos_z := Real.cos rotation.z
  let rotation_matrix_x : Matrix (Fin 4) (Fin 4) ℝ :=
    !![1, 0, 0, 0;
       0, cos_x, -sin_x, 0;
       0, sin_x, cos_x, 0;
       0, 0, 0, 1]
  let rotation_matrix_y : Matrix (Fin 4) (Fin 4) ℝ :=
    !![cos_y, 0, sin_y, 0;
       0, 1, 0, 0;
       -sin_y, 0, cos_y, 0;
       0, 0, 0, 1]
  let rotation_matrix_z : Matrix (Fin 4) (Fin 4) ℝ :=
    !![cos_z, -sin_z, 0, 0;
       sin_z, cos_z, 0, 0;
       0, 0, 1, 0;
       0, 0, 0, 1]
  let rotation_matrix := rotation_matrix_z * rotation_matrix_y * rotation_matrix_x
  let transform_matrix : Matrix (Fin 4) (Fin 4) ℝ :=
    !![scale, 0, 0, translation.x;
       0, scale, 0, translation.y;
       0, 0, scale, translation.z;
       0, 0, 0, 1]
  transform_matrix * rotation_matrix

/-- Spec-side definition (§4.1): the pure translation matrix. -/
noncomputable def translationMatrix (t : Vec3) : Matrix (Fin 4) (Fin 4) ℝ :=
  !![1, 0, 0, t.x;
     0, 1, 0, t.y;
     0, 0, 1, t.z;
     0, 0, 0, 1]

/-- Spec-side definition (§4.1): the pure uniform-scale matrix. -/
noncomputable def scaleMatrix (s : ℝ) : Matrix (Fin 4) (Fin 4) ℝ :=
  !![s, 0, 0, 0;
     0, s, 0, 0;
     0, 0, s, 0;
     0, 0, 0, 1]

/-- Spec-side definition (§4.1): rotation about the X axis. -/
noncomputable def rotationX (a : ℝ) : Matrix (Fin 4) (Fin 4) ℝ :=
  !![1, 0, 0, 0;
     0, Real.cos a, -Real.sin a, 0;
     0, Real.sin a, Real.cos a, 0;
     0, 0, 0, 1]

/-- Spec-side definition (§4.1): rotation about the Y axis. -/
noncomputable def rotationY (a : ℝ) : Matrix (Fin 4) (Fin 4) ℝ :=
  !![Real.cos a, 0, Real.sin a, 0;
     0, 1, 0, 0;
     -Real.sin a, 0, Real.cos a, 0;
     0, 0, 0, 1]

/-- Spec-side definition (§4.1): rotation about the Z axis. -/
noncomputable def rotationZ (a : ℝ) : Matrix (Fin 4) (Fin 4) ℝ :=
  !![Real.cos a, -Real.sin a, 0, 0;
     Real.sin a, Real.cos a, 0, 0;
     0, 0, 1, 0;
     0, 0, 0, 1]

/-- Primitive assembly (the `step_by(3)` loop in `render`, src/main.rs):
pushes `[v[i], v[i+1], v[i+2]]` for `i = 0, 3, 6, ...` while `i + 2` is in
bounds, dropping any trailing 1–2 vertices. -/
def assemble {α : Type} : List α → List (α × α × α)
  | a :: b :: c :: rest => (a, b, c) :: assemble rest
  | _ => []

/-! ## Helper lemmas -/

lemma f32ToU8_le (x : ℝ) : f32ToU8 x ≤ 255 := by
  unfold f32ToU8
  split_ifs with h1 h2
  · exact Nat.zero_le _
  · exact le_refl _
  · have hx : 0 < x := lt_of_not_le h1
    have hx255 : x < 255 := lt_of_not_le h2
    exact le_of_lt ((Nat.floor_lt hx.le).mpr hx255)

lemma and_255_eq_mod (n : ℕ) : n &&& 255 = n % 256 := by
  have h := Nat.and_pow_two_sub_one_eq_mod n 8
  norm_num at h
  exact h

lemma hex_or_eq (r g b : ℕ) (hg : g < 256) (hb : b < 256) :
    (r <<< 16 ||| g <<< 8 ||| b) = r * 65536 + g * 256 + b := by
  rw [Nat.shiftLeft_eq, Nat.shiftLeft_eq]
  have h1 : g * 2 ^ 8 < 2 ^ 16 := by omega
  have h2 : r * 2 ^ 16 ||| g * 2 ^ 8 = r * 2 ^ 16 + g * 2 ^ 8 := by
    rw [Nat.mul_comm r (2 ^ 16), ← Nat.mul_add_lt_is_or h1 r]
  have h3 : b < 2 ^ 8 := by omega
  rw [h2]
  have h4 : r * 2 ^ 16 + g * 2 ^ 8 = 2 ^ 8 * (r * 2 ^ 8 + g) := by ring
  rw [h4, ← Nat.mul_add_lt_is_or h3 (r * 2 ^ 8 + g)]
  ring

lemma assemble_length {α : Type} : ∀ (l : List α), (assemble l).length = l.length / 3
  | [] => by simp [assemble]
  | [a] => by simp [assemble]
  | [a, b] => by simp [assemble]
  | a :: b :: c :: rest => by
      simp [assemble, assemble_length rest]
      omega

lemma vec_add_sub_cancel (c v : Vec3) : (c + v) - c = v := by
  rw [Vec3.ext_iff]
  refine ⟨?_, ?_, ?_⟩ <;> simp

lemma magnitude_eq_zero_of_eq {a b : Vec3} (h : a = b) : (a - b).magnitude = 0 := by
  subst h
  unfold Vec3.magnitude
  simp

lemma magnitude_pos_of_ne {a b : Vec3} (h : a ≠ b) : 0 < (a - b).magnitude := by
  unfold Vec3.magnitude
  apply Real.sqrt_pos.mpr
  by_contra h0
  push_neg at h0
  apply h
  have hx2 : (a - b).x * (a - b).x = 0 := by
    nlinarith [mul_self_nonneg (a - b).x, mul_self_nonneg (a - b).y,
      mul_self_nonneg (a - b).z]
  have hy2 : (a - b).y * (a - b).y = 0 := by
    nlinarith [mul_self_nonneg (a - b).x, mul_self_nonneg (a - b).y,
      mul_self_nonneg (a - b).z]
  have hz2 : (a - b).z * (a - b).z = 0 := by
    nlinarith [mul_self_nonneg (a - b).x, mul_self_nonneg (a - b).y,
      mul_self_nonneg (a - b).z]
  have hx := mul_self_eq_zero.mp hx2
  have hy := mul_self_eq_zero.mp hy2
  have hz := mul_self_eq_zero.mp hz2
  rw [Vec3.sub_def] at hx hy hz
  dsimp only at hx hy hz
  rw [Vec3.ext_iff]
  exact ⟨by linarith, by linarith, by linarith⟩

lemma sqrt_orbit_radius (r ny np : ℝ) (hr : 0 ≤ r) :
    Real.sqrt ((r * Real.cos ny * Real.cos np) * (r * Real.cos ny * Real.cos np) +
      (-r * Real.sin np) * (-r * Real.sin np) +
      (r * Real.sin ny * Real.cos np) * (r * Real.sin ny * Real.cos np)) = r := by
  have h : (r * Real.cos ny * Real.cos np) * (r * Real.cos ny * Real.cos np) +
      (-r * Real.sin np) * (-r * Real.sin np) +
      (r * Real.sin ny * Real.cos np) * (r * Real.sin ny * Real.cos np) = r ^ 2 := by
    linear_combination (r ^ 2 * Real.cos np ^ 2) * Real.sin_sq_add_cos_sq ny +
      r ^ 2 * Real.sin_sq_add_cos_sq np
  rw [h, Real.sqrt_sq hr]

lemma orbit_eye_sub_center (cam : Camera) (dy dp : ℝ) :
    (cam.orbit dy dp).eye - (cam.orbit dy dp).center = Vec3.new
      (Camera.radius cam * Real.cos (Camera.new_yaw cam dy) *
        Real.cos (Camera.new_pitch cam dp))
      (-Camera.radius cam * Real.sin (Camera.new_pitch cam dp))
      (Camera.radius cam * Real.sin (Camera.new_yaw cam dy) *
        Real.cos (Camera.new_pitch cam dp)) := by
  show Camera.new_eye cam dy dp - cam.center = _
  unfold Camera.new_eye
  exact vec_add_sub_cancel _ _

lemma radius_nonneg (cam : Camera) : 0 ≤ Camera.radius cam :=
  Real.sqrt_nonneg _

lemma orbit_radius_eq (cam : Camera) (dy dp : ℝ) :
    ((cam.orbit dy dp).eye - (cam.orbit dy dp).center).magnitude =
      (cam.eye - cam.center).magnitude := by
  rw [orbit_eye_sub_center]
  show Real.sqrt _ = _
  exact sqrt_orbit_radius (Camera.radius cam) _ _ (radius_nonneg cam)

lemma orbitSeq_invariant (ds : List (ℝ × ℝ)) : ∀ (cam : Camera),
    (Camera.orbitSeq cam ds).center = cam.center ∧
    ((Camera.orbitSeq cam ds).eye - (Camera.orbitSeq cam ds).center).magnitude =
      (cam.eye - cam.center).magnitude := by
  induction ds with
  | nil => exact fun cam => ⟨rfl, rfl⟩
  | cons d rest ih =>
    intro cam
    have hfold : Camera.orbitSeq cam (d :: rest) =
        Camera.orbitSeq (cam.orbit d.1 d.2) rest := rfl
    rw [hfold]
    refine ⟨(ih _).1.trans rfl, ((ih _).2).trans ?_⟩
    exact orbit_radius_eq cam d.1 d.2

lemma rustClamp_mem (x lo hi : ℝ) (h : lo ≤ hi) :
    lo ≤ rustClamp x lo hi ∧ rustClamp x lo hi ≤ hi := by
  unfold rustClamp
  split_ifs with h1 h2
  · exact ⟨le_refl _, h⟩
  · exact ⟨h, le_refl _⟩
  · exact ⟨not_lt.mp h1, not_lt.mp h2⟩

lemma sqrt_orbit_xz (r ny np : ℝ) (h : 0 ≤ r * Real.cos np) :
    Real.sqrt ((r * Real.cos ny * Real.cos np) * (r * Real.cos ny * Real.cos np) +
      (r * Real.sin ny * Real.cos np) * (r * Real.sin ny * Real.cos np)) =
      r * Real.cos np := by
  have hh : (r * Real.cos ny * Real.cos np) * (r * Real.cos ny * Real.cos np) +
      (r * Real.sin ny * Real.cos np) * (r * Real.sin ny * Real.cos np) =
      (r * Real.cos np) ^ 2 := by
    linear_combination ((r * Real.cos np) ^ 2) * Real.sin_sq_add_cos_sq ny
  rw [hh, Real.sqrt_sq h]

lemma new_pitch_bounds (cam : Camera) (dp : ℝ) :
    -Real.pi / 2 + 0.1 ≤ Camera.new_pitch cam dp ∧
      Camera.new_pitch cam dp ≤ Real.pi / 2 - 0.1 := by
  have hpi := Real.pi_gt_three
  have hlohi : -Real.pi / 2 + 0.1 ≤ Real.pi / 2 - 0.1 := by
    have h01 : (0.1 : ℝ) = 1 / 10 := by norm_num
    rw [h01]
    linarith
  exact rustClamp_mem _ _ _ hlohi

lemma rustClamp_idem (t : ℝ) : rustClamp (rustClamp t 0 1) 0 1 = rustClamp t 0 1 := by
  unfold rustClamp
  split_ifs <;> linarith

lemma rustClamp_of_nonpos (t : ℝ) (h : t ≤ 0) : rustClamp t 0 1 = 0 := by
  unfold rustClamp
  split_ifs <;> linarith

lemma rustClamp_of_one_le (t : ℝ) (h : 1 ≤ t) : rustClamp t 0 1 = 1 := by
  unfold rustClamp
  split_ifs <;> linarith

lemma rustRound_natCast (n : ℕ) : rustRound (n : ℝ) = (n : ℝ) := by
  unfold rustRound
  rw [if_pos (by positivity)]
  have h : ⌊(n : ℝ) + 1 / 2⌋ = (n : ℤ) :=
    Int.floor_eq_iff.mpr ⟨by push_cast; linarith, by push_cast; linarith⟩
  rw [h]
  push_cast
  rfl

lemma f32ToU8_natCast (n : ℕ) (h : n < 256) : f32ToU8 (n : ℝ) = n := by
  unfold f32ToU8
  split_ifs with h1 h2
  · have hn : (n : ℝ) = 0 := le_antisymm h1 (Nat.cast_nonneg n)
    have : n = 0 := by exact_mod_cast hn
    omega
  · have h255 : (255 : ℝ) ≤ (n : ℝ) := h2
    have : 255 ≤ n := by exact_mod_cast h255
    omega
  · exact Nat.floor_natCast n

/-- A 4×4 matrix whose last row and last column vanish off the corner
(the shape shared by all the rotation matrices above). -/
def affine3 (M : Matrix (Fin 4) (Fin 4) ℝ) : Prop :=
  (∀ j, j ≠ 3 → M 3 j = 0) ∧ (∀ i, i ≠ 3 → M i 3 = 0)

lemma scaleMatrix_eq_diagonal (s : ℝ) :
    scaleMatrix s = Matrix.diagonal ![s, s, s, 1] := by
  unfold scaleMatrix
  ext i j
  fin_cases i <;> fin_cases j <;>
    simp [Matrix.diagonal, Matrix.vecHead, Matrix.vecTail]

lemma affine3_mul {M N : Matrix (Fin 4) (Fin 4) ℝ}
    (hM : affine3 M) (hN : affine3 N) : affine3 (M * N) := by
  constructor
  · intro j hj
    rw [Matrix.mul_apply, Fin.sum_univ_four,
      hM.1 0 (by decide), hM.1 1 (by decide), hM.1 2 (by decide), hN.1 j hj]
    ring
  · intro i hi
    rw [Matrix.mul_apply, Fin.sum_univ_four,
      hN.2 0 (by decide), hN.2 1 (by decide), hN.2 2 (by decide), hM.2 i hi]
    ring

lemma affine3_rotationX (a : ℝ) : affine3 (rotationX a) := by
  constructor <;> intro j hj <;> fin_cases j <;>
    simp [rotationX, Matrix.vecHead, Matrix.vecTail] at hj ⊢

lemma affine3_rotationY (a : ℝ) : affine3 (rotationY a) := by
  constructor <;> intro j hj <;> fin_cases j <;>
    simp [rotationY, Matrix.vecHead, Matrix.vecTail] at hj ⊢

lemma affine3_rotationZ (a : ℝ) : affine3 (rotationZ a) := by
  constructor <;> intro j hj <;> fin_cases j <;>
    simp [rotationZ, Matrix.vecHead, Matrix.vecTail] at hj ⊢

lemma scale_comm {M : Matrix (Fin 4) (Fin 4) ℝ} (hM : affine3 M) (s : ℝ) :
    M * scaleMatrix s = scaleMatrix s * M := by
  rw [scaleMatrix_eq_diagonal]
  ext i j
  rw [Matrix.mul_diagonal, Matrix.diagonal_mul]
  by_cases hi : i = 3
  · by_cases hj : j = 3
    · subst hi hj; simp
    · subst hi
      rw [hM.1 j hj]
      ring
  · by_cases hj : j = 3
    · subst hj
      rw [hM.2 i hi]
      ring
    · fin_cases i <;> fin_cases j <;> simp_all <;> ring

lemma transform_eq (t : Vec3) (s : ℝ) :
    translationMatrix t * scaleMatrix s =
      !![s, 0, 0, t.x;
         0, s, 0, t.y;
         0, 0, s, t.z;
         0, 0, 0, 1] := by
  unfold translationMatrix scaleMatrix
  ext i j
  fin_cases i <;> fin_cases j <;>
    simp [Matrix.mul_apply, Fin.sum_univ_four, Matrix.vecHead, Matrix.vecTail]

lemma get_cons3 {α : Type} (a b c : α) (l : List α) (n : ℕ) :
    (a :: b :: c :: l).get? (n + 3) = l.get? n := by
  have h : n + 3 = n + 1 + 1 + 1 := rfl
  rw [h]
  simp [List.get?_cons_succ]

lemma assemble_get? {α : Type} : ∀ (l : List α) (k : ℕ),
    (assemble l).get? k =
      (l.get? (3 * k)).bind (fun x =>
        (l.get? (3 * k + 1)).bind (fun y =>
          (l.get? (3 * k + 2)).map (fun z => (x, y, z))))
  | [], k => by simp [assemble]
  | [a], k => by cases k <;> simp [assemble]
  | [a, b], k => by cases k <;> simp [assemble]
  | a :: b :: c :: rest, 0 => by simp [assemble]
  | a :: b :: c :: rest, (k + 1) => by
      have h3 : 3 * (k + 1) = 3 * k + 3 := by ring
      rw [h3]
      have h4 : 3 * k + 3 + 1 = 3 * k + 1 + 3 := by ring
      have h5 : 3 * k + 3 + 2 = 3 * k + 2 + 3 := by ring
      rw [h4, h5, get_cons3, get_cons3, get_cons3]
      simpa [assemble] using assemble_get? rest k

end Shaders

namespace Shaders

open Color Camera

/-! ## Claim theorems -/

/-- C8: `rotate_pitch` and `rotate_yaw` are no-ops in this version: for
every camera state and every angle they return the camera unchanged, so
eye, center, up, and the dirty flag are all untouched. -/
theorem spec_C8_rotate_stubs_are_noops (cam : Camera) (angle : ℝ) :
    cam.rotate_pitch angle = cam ∧ cam.rotate_yaw angle = cam :=
  ⟨rfl, rfl⟩

/-- C7: for every color whose channels are valid `u8` values,
`from_hex (to_hex c) = c`: the 24-bit hex roundtrip reproduces exactly the
same r, g, b channels. -/
theorem spec_C7_hex_roundtrip (c : Color)
    (hr : c.r < 256) (hg : c.g < 256) (hb : c.b < 256) :
    Color.from_hex (Color.to_hex c) = c := by
  obtain ⟨r, g, b⟩ := c
  dsimp only at hr hg hb
  simp only [Color.from_hex, Color.to_hex]
  rw [hex_or_eq r g b hg hb]
  simp only [Color.mk.injEq]
  refine ⟨?_, ?_, ?_⟩
  · rw [Nat.shiftRight_eq_div_pow, and_255_eq_mod]
    omega
  · rw [Nat.shiftRight_eq_div_pow, and_255_eq_mod]
    omega
  · rw [and_255_eq_mod]
    omega

/-- C7 witness: the roundtrip at the concrete color (12, 34, 56). -/
theorem spec_C7_witness :
    (12 < 256 ∧ 34 < 256 ∧ 56 < 256) ∧
      Color.from_hex (Color.to_hex ⟨12, 34, 56⟩) = ⟨12, 34, 56⟩ :=
  ⟨by norm_num,
   spec_C7_hex_roundtrip ⟨12, 34, 56⟩ (by norm_num) (by norm_num) (by norm_num)⟩

/-- C5: primitive assembly yields exactly `⌊n / 3⌋` triangles (so trailing
1–2 vertices are dropped), and the `k`-th triangle is the consecutive triple
of stream elements at indices `3k`, `3k + 1`, `3k + 2`. -/
theorem spec_C5_primitive_assembly {α : Type} (l : List α) :
    (assemble l).length = l.length / 3 ∧
    ∀ k : ℕ, (assemble l).get? k =
      (l.get? (3 * k)).bind (fun x =>
        (l.get? (3 * k + 1)).bind (fun y =>
          (l.get? (3 * k + 2)).map (fun z => (x, y, z)))) :=
  ⟨assemble_length l, assemble_get? l⟩

/-- C6: for valid 8-bit color triples, `blend_add` computes
`min(c1 + c2, 255)` per channel, `blend_subtract` computes
`max(c1 - c2, 0)` per channel, the saturating `Add` operator computes
`min(c1 + c2, 255)` per channel, and scalar `Mul` keeps every channel in
`[0, 255]`: no channel arithmetic wraps. -/
theorem spec_C6_color_saturation (c1 c2 : Color)
    (h1r : c1.r < 256) (h1g : c1.g < 256) (h1b : c1.b < 256)
    (h2r : c2.r < 256) (h2g : c2.g < 256) (h2b : c2.b < 256) :
    ((c1.blend_add c2).r = min (c1.r + c2.r) 255 ∧
     (c1.blend_add c2).g = min (c1.g + c2.g) 255 ∧
     (c1.blend_add c2).b = min (c1.b + c2.b) 255) ∧
    (((c1.blend_subtract c2).r : ℤ) = max ((c1.r : ℤ) - (c2.r : ℤ)) 0 ∧
     ((c1.blend_subtract c2).g : ℤ) = max ((c1.g : ℤ) - (c2.g : ℤ)) 0 ∧
     ((c1.blend_subtract c2).b : ℤ) = max ((c1.b : ℤ) - (c2.b : ℤ)) 0) ∧
    ((c1.add c2).r = min (c1.r + c2.r) 255 ∧
     (c1.add c2).g = min (c1.g + c2.g) 255 ∧
     (c1.add c2).b = min (c1.b + c2.b) 255) ∧
    (∀ s : ℝ, (c1.mulScalar s).r ≤ 255 ∧ (c1.mulScalar s).g ≤ 255 ∧
      (c1.mulScalar s).b ≤ 255) := by
  refine ⟨⟨?_, ?_, ?_⟩, ⟨?_, ?_, ?_⟩, ⟨rfl, rfl, rfl⟩,
    fun s => ⟨f32ToU8_le _, f32ToU8_le _, f32ToU8_le _⟩⟩
  · simp only [Color.blend_add]; omega
  · simp only [Color.blend_add]; omega
  · simp only [Color.blend_add]; omega
  · simp only [Color.blend_subtract]; omega
  · simp only [Color.blend_subtract]; omega
  · simp only [Color.blend_subtract]; omega

/-- C6 witness: saturation at the concrete colors (200, 100, 3) and
(100, 200, 250), with the scalar 2. -/
theorem spec_C6_witness :
    ((Color.mk 200 100 3).blend_add ⟨100, 200, 250⟩).r = 255 ∧
    (((Color.mk 200 100 3).blend_subtract ⟨100, 200, 250⟩).b : ℤ) = 0 ∧
    ((Color.mk 200 100 3).mulScalar 2).r ≤ 255 := by
  have h := spec_C6_color_saturation ⟨200, 100, 3⟩ ⟨100, 200, 250⟩
    (by norm_num) (by norm_num) (by norm_num) (by norm_num) (by norm_num) (by norm_num)
  refine ⟨?_, ?_, (h.2.2.2 2).1⟩
  · rw [h.1.1]; decide
  · rw [h.2.1.2.2]; decide

/-- C1 counterexample: the claim says every mutating operation sets the
dirty flag, so `check_if_changed` must return `true` immediately after a
`move_center` call; on the concrete camera below (flag already consumed by
one `check_if_changed`), `move_center` is followed by a `false` answer. -/
theorem spec_C1_counterexample :
    (((((Camera.new (Vec3.new 0 0 5) (Vec3.new 0 0 0)
          (Vec3.new 0 1 0)).check_if_changed).snd).move_center
            (Vec3.new 1 0 0)).check_if_changed).fst = false := rfl

/-- C2: for every translation vector, uniform scale factor, and Euler
rotation angles, the model matrix produced by `create_model_matrix` equals
translation ∘ (Rz · Ry · Rx) ∘ uniform-scale: applied to a local
coordinate it scales first, then rotates in Z-then-Y-then-X matrix order,
then translates. -/
theorem spec_C2_model_matrix (t : Vec3) (s : ℝ) (r : Vec3) :
    create_model_matrix t s r =
      translationMatrix t * (rotationZ r.z * rotationY r.y * rotationX r.x) *
        scaleMatrix s := by
  have h1 : create_model_matrix t s r =
      (translationMatrix t * scaleMatrix s) *
        (rotationZ r.z * rotationY r.y * rotationX r.x) := by
    rw [transform_eq]
    rfl
  have hR : affine3 (rotationZ r.z * rotationY r.y * rotationX r.x) :=
    affine3_mul (affine3_mul (affine3_rotationZ r.z) (affine3_rotationY r.y))
      (affine3_rotationX r.x)
  rw [h1, Matrix.mul_assoc (translationMatrix t) (scaleMatrix s) _,
    ← scale_comm hR s, ← Matrix.mul_assoc]

/-- C3: for every camera with eye distinct from center and every sequence
of `orbit(delta_yaw, delta_pitch)` calls, the distance `|eye - center|`
after the calls equals the distance before them (exactly, in the real
model), and each `orbit` call leaves `center` unchanged. -/
theorem spec_C3_orbit_radius_invariant (cam : Camera)
    (h : cam.eye ≠ cam.center) (ds : List (ℝ × ℝ)) :
    (Camera.orbitSeq cam ds).center = cam.center ∧
    ((Camera.orbitSeq cam ds).eye - (Camera.orbitSeq cam ds).center).magnitude =
      (cam.eye - cam.center).magnitude ∧
    ∀ dy dp : ℝ, (cam.orbit dy dp).center = cam.center :=
  ⟨(orbitSeq_invariant ds cam).1, (orbitSeq_invariant ds cam).2, fun _ _ => rfl⟩

/-- C3 witness: the invariant instantiated at the camera with eye
(0, 0, 5), center (0, 0, 0) and the single orbit call (1, 2). -/
theorem spec_C3_witness :
    (Camera.new (Vec3.new 0 0 5) (Vec3.new 0 0 0) (Vec3.new 0 1 0)).eye ≠
      (Camera.new (Vec3.new 0 0 5) (Vec3.new 0 0 0) (Vec3.new 0 1 0)).center ∧
    (Camera.orbitSeq (Camera.new (Vec3.new 0 0 5) (Vec3.new 0 0 0)
        (Vec3.new 0 1 0)) [(1, 2)]).center = Vec3.new 0 0 0 := by
  have hne : (Camera.new (Vec3.new 0 0 5) (Vec3.new 0 0 0) (Vec3.new 0 1 0)).eye ≠
      (Camera.new (Vec3.new 0 0 5) (Vec3.new 0 0 0) (Vec3.new 0 1 0)).center := by
    intro hcontra
    rw [Vec3.ext_iff] at hcontra
    norm_num [Camera.new, Vec3.new] at hcontra
  exact ⟨hne, (spec_C3_orbit_radius_invariant _ hne [(1, 2)]).1.trans rfl⟩

/-- C4: for every camera with eye distinct from center and all deltas, the
pitch angle of the eye around the center after an `orbit` call (recomputed
the way `orbit` itself recomputes it) lies strictly inside
(-PI/2, PI/2). -/
theorem spec_C4_pitch_strictly_inside (cam : Camera)
    (h : cam.eye ≠ cam.center) (dy dp : ℝ) :
    -(Real.pi / 2) < eyePitch (cam.orbit dy dp).eye (cam.orbit dy dp).center ∧
    eyePitch (cam.orbit dy dp).eye (cam.orbit dy dp).center < Real.pi / 2 := by
  have hpi := Real.pi_gt_three
  have h01 : (0.1 : ℝ) = 1 / 10 := by norm_num
  have hmem := new_pitch_bounds cam dp
  have hnp1 : -(Real.pi / 2) < Camera.new_pitch cam dp := by
    rw [h01] at hmem
    linarith [hmem.1]
  have hnp2 : Camera.new_pitch cam dp < Real.pi / 2 := by
    rw [h01] at hmem
    linarith [hmem.2]
  have hr : 0 < Camera.radius cam := magnitude_pos_of_ne h
  have hcos : 0 < Real.cos (Camera.new_pitch cam dp) :=
    Real.cos_pos_of_mem_Ioo ⟨hnp1, hnp2⟩
  unfold eyePitch
  rw [orbit_eye_sub_center]
  dsimp only [Vec3.new]
  have hy : -(-Camera.radius cam * Real.sin (Camera.new_pitch cam dp)) =
      Camera.radius cam * Real.sin (Camera.new_pitch cam dp) := by ring
  have hxz := sqrt_orbit_xz (Camera.radius cam) (Camera.new_yaw cam dy)
    (Camera.new_pitch cam dp) (mul_nonneg hr.le hcos.le)
  rw [hy, hxz]
  have hxpos : 0 < Camera.radius cam * Real.cos (Camera.new_pitch cam dp) :=
    mul_pos hr hcos
  unfold atan2
  rw [if_pos hxpos]
  have htan : Camera.radius cam * Real.sin (Camera.new_pitch cam dp) /
      (Camera.radius cam * Real.cos (Camera.new_pitch cam dp)) =
      Real.tan (Camera.new_pitch cam dp) := by
    rw [mul_div_mul_left _ _ (ne_of_gt hr), Real.tan_eq_sin_div_cos]
  rw [htan, Real.arctan_tan hnp1 hnp2]
  exact ⟨hnp1, hnp2⟩

/-- C4 witness: the strict pitch bound instantiated at the camera with eye
(0, 0, 5), center (0, 0, 0), and deltas (0, 100). -/
theorem spec_C4_witness :
    (Camera.new (Vec3.new 0 0 5) (Vec3.new 0 0 0) (Vec3.new 0 1 0)).eye ≠
      (Camera.new (Vec3.new 0 0 5) (Vec3.new 0 0 0) (Vec3.new 0 1 0)).center ∧
    -(Real.pi / 2) < eyePitch
      ((Camera.new (Vec3.new 0 0 5) (Vec3.new 0 0 0) (Vec3.new 0 1 0)).orbit
        0 100).eye
      ((Camera.new (Vec3.new 0 0 5) (Vec3.new 0 0 0) (Vec3.new 0 1 0)).orbit
        0 100).center := by
  have hne : (Camera.new (Vec3.new 0 0 5) (Vec3.new 0 0 0) (Vec3.new 0 1 0)).eye ≠
      (Camera.new (Vec3.new 0 0 5) (Vec3.new 0 0 0) (Vec3.new 0 1 0)).center := by
    intro hcontra
    rw [Vec3.ext_iff] at hcontra
    norm_num [Camera.new, Vec3.new] at hcontra
  exact ⟨hne, (spec_C4_pitch_strictly_inside _ hne 0 100).1⟩

/-- C9: for the camera with eye (0, 0, 5) and center (0, 0, 0), the call
`orbit(0, 0)` leaves the eye position unchanged (exactly, in the real
model). -/
theorem spec_C9_orbit_zero_delta :
    ((Camera.new (Vec3.new 0 0 5) (Vec3.new 0 0 0) (Vec3.new 0 1 0)).orbit 0 0).eye =
      (Camera.new (Vec3.new 0 0 5) (Vec3.new 0 0 0) (Vec3.new 0 1 0)).eye := by
  have hpi := Real.pi_gt_three
  set cam := Camera.new (Vec3.new 0 0 5) (Vec3.new 0 0 0) (Vec3.new 0 1 0) with hcam
  have hrv : Camera.radius_vector cam = Vec3.new 0 0 5 := by
    rw [hcam]
    unfold Camera.radius_vector Camera.new
    rw [Vec3.ext_iff]
    norm_num [Vec3.new]
  have hr : Camera.radius cam = 5 := by
    unfold Camera.radius
    rw [hrv]
    unfold Vec3.magnitude
    dsimp [Vec3.new]
    rw [show (0 : ℝ) * 0 + 0 * 0 + 5 * 5 = 5 ^ 2 by norm_num,
      Real.sqrt_sq (by norm_num)]
  have hyaw : Camera.current_yaw cam = Real.pi / 2 := by
    unfold Camera.current_yaw
    rw [hrv]
    dsimp [Vec3.new]
    unfold atan2
    rw [if_neg (lt_irrefl 0), if_neg (lt_irrefl 0), if_pos (by norm_num : (0 : ℝ) < 5)]
  have hxz : Camera.radius_xz cam = 5 := by
    unfold Camera.radius_xz
    rw [hrv]
    dsimp [Vec3.new]
    rw [show (0 : ℝ) * 0 + 5 * 5 = 5 ^ 2 by norm_num, Real.sqrt_sq (by norm_num)]
  have hpitch : Camera.current_pitch cam = 0 := by
    unfold Camera.current_pitch
    rw [hrv, hxz]
    dsimp [Vec3.new]
    unfold atan2
    rw [if_pos (by norm_num : (0 : ℝ) < 5)]
    norm_num
  have hny : Camera.new_yaw cam 0 = Real.pi / 2 := by
    unfold Camera.new_yaw
    rw [hyaw]
    unfold rustRem rustTrunc
    have hdiv : (Real.pi / 2 + 0) / (2 * Real.pi) = 1 / 4 := by
      rw [add_zero]
      rw [div_div]
      rw [show (2 : ℝ) * (2 * Real.pi) = Real.pi * 4 by ring]
      rw [div_mul_eq_div_mul_one_div, div_self Real.pi_ne_zero]
      norm_num
    rw [hdiv]
    rw [if_pos (by norm_num : (0 : ℝ) ≤ 1 / 4)]
    have hfl : ⌊(1 / 4 : ℝ)⌋ = 0 :=
      Int.floor_eq_iff.mpr ⟨by norm_num, by norm_num⟩
    rw [hfl]
    push_cast
    ring
  have hnp : Camera.new_pitch cam 0 = 0 := by
    unfold Camera.new_pitch
    rw [hpitch]
    unfold rustClamp
    have h01 : (0.1 : ℝ) = 1 / 10 := by norm_num
    split_ifs with a1 a2
    · rw [h01] at a1; linarith
    · rw [h01] at a2; linarith
    · ring
  show Camera.new_eye cam 0 0 = cam.eye
  unfold Camera.new_eye
  rw [hr, hny, hnp]
  rw [Real.cos_pi_div_two, Real.sin_pi_div_two, Real.cos_zero, Real.sin_zero]
  rw [hcam]
  unfold Camera.new
  rw [Vec3.ext_iff]
  dsimp [Vec3.new]
  norm_num

/-- C10: `lerp` clamps its parameter into [0,1] before interpolating, so
`lerp c1 c2 t = lerp c1 c2 (clamp t 0 1)`; in particular every `t ≤ 0`
returns `c1` and every `t ≥ 1` returns `c2`: out-of-range parameters never
extrapolate beyond the endpoint colors. -/
theorem spec_C10_lerp_clamps (c1 c2 : Color)
    (h1r : c1.r < 256) (h1g : c1.g < 256) (h1b : c1.b < 256)
    (h2r : c2.r < 256) (h2g : c2.g < 256) (h2b : c2.b < 256) (t : ℝ) :
    c1.lerp c2 t = c1.lerp c2 (rustClamp t 0 1) ∧
    (t ≤ 0 → c1.lerp c2 t = c1) ∧
    (1 ≤ t → c1.lerp c2 t = c2) := by
  obtain ⟨r1, g1, b1⟩ := c1
  obtain ⟨r2, g2, b2⟩ := c2
  dsimp only at h1r h1g h1b h2r h2g h2b
  refine ⟨?_, ?_, ?_⟩
  · simp only [Color.lerp, rustClamp_idem]
  · intro ht
    simp only [Color.lerp, rustClamp_of_nonpos t ht, Color.mk.injEq]
    refine ⟨?_, ?_, ?_⟩
    · rw [show ((r1 : ℝ) + ((r2 : ℝ) - (r1 : ℝ)) * 0) = (r1 : ℝ) by ring,
        rustRound_natCast, f32ToU8_natCast r1 h1r]
    · rw [show ((g1 : ℝ) + ((g2 : ℝ) - (g1 : ℝ)) * 0) = (g1 : ℝ) by ring,
        rustRound_natCast, f32ToU8_natCast g1 h1g]
    · rw [show ((b1 : ℝ) + ((b2 : ℝ) - (b1 : ℝ)) * 0) = (b1 : ℝ) by ring,
        rustRound_natCast, f32ToU8_natCast b1 h1b]
  · intro ht
    simp only [Color.lerp, rustClamp_of_one_le t ht, Color.mk.injEq]
    refine ⟨?_, ?_, ?_⟩
    · rw [show ((r1 : ℝ) + ((r2 : ℝ) - (r1 : ℝ)) * 1) = (r2 : ℝ) by ring,
        rustRound_natCast, f32ToU8_natCast r2 h2r]
    · rw [show ((g1 : ℝ) + ((g2 : ℝ) - (g1 : ℝ)) * 1) = (g2 : ℝ) by ring,
        rustRound_natCast, f32ToU8_natCast g2 h2g]
    · rw [show ((b1 : ℝ) + ((b2 : ℝ) - (b1 : ℝ)) * 1) = (b2 : ℝ) by ring,
        rustRound_natCast, f32ToU8_natCast b2 h2b]

/-- C10 witness: interpolation at t = -5 returns the first endpoint for
the concrete colors (10, 20, 30) and (40, 50, 60). -/
theorem spec_C10_witness :
    (10 < 256 ∧ 20 < 256 ∧ 30 < 256 ∧ 40 < 256 ∧ 50 < 256 ∧ 60 < 256) ∧
    (Color.mk 10 20 30).lerp ⟨40, 50, 60⟩ (-5) = ⟨10, 20, 30⟩ :=
  ⟨by norm_num,
   (spec_C10_lerp_clamps ⟨10, 20, 30⟩ ⟨40, 50, 60⟩ (by norm_num) (by norm_num)
     (by norm_num) (by norm_num) (by norm_num) (by norm_num) (-5)).2.1
     (by norm_num)⟩

/-- C1 (amended): `orbit` and `zoom` set the dirty flag and
`check_if_changed` returns `true` exactly once immediately after either of
them, then `false` on the next call; `move_center`, `move_up` and
`set_bird_eye_view` leave the dirty flag unchanged (the source never
touches `has_changed` in those three methods). -/
theorem spec_C1_dirty_flag (cam : Camera) (dy dp d a : ℝ) (v : Vec3) :
    (cam.orbit dy dp).has_changed = true ∧
    (cam.zoom d).has_changed = true ∧
    ((cam.orbit dy dp).check_if_changed).fst = true ∧
    (((cam.orbit dy dp).check_if_changed).snd.check_if_changed).fst = false ∧
    ((cam.zoom d).check_if_changed).fst = true ∧
    (((cam.zoom d).check_if_changed).snd.check_if_changed).fst = false ∧
    (cam.move_center v).has_changed = cam.has_changed ∧
    (cam.move_up a).has_changed = cam.has_changed ∧
    cam.set_bird_eye_view.has_changed = cam.has_changed := by
  simp [Camera.orbit, Camera.zoom, Camera.move_center, Camera.move_up,
    Camera.set_bird_eye_view, Camera.check_if_changed]

end Shaders
